import Mathlib

/-!
Shallow embedding of the seam-carving program (src/seam_carving.cpp) and
verification of the frozen specification claims.

Images are rectangular grids of 3-channel 8-bit pixels (OpenCV Vec3b, BGR
order); energy fields are grids of scalars.  The C++ stores energies as CV_64F
doubles, but every value it ever computes is an integer represented
exactly (8-bit grayscale input, integer convolution coefficients, sums
and comparisons only), so the scalars are modelled as integers; the
dynamic program uses only ordered addition, so nothing depends on the
choice.  Indexing follows the source: row i, column j, with the
Mat accessors becoming List.getD with a default that is never reached on
the rectangular inputs the program handles.
-/

set_option maxHeartbeats 1000000

namespace SeamCarving

/-- A pixel: the three 8-bit channels of an OpenCV Vec3b, in BGR order. -/
abbrev Pixel : Type := ℕ × ℕ × ℕ

abbrev Image : Type := List (List Pixel)

/-- An energy field: one scalar per pixel (CV_64F in the C++; every value
actually computed is an integer, represented exactly). -/
abbrev Field : Type := List (List ℤ)

def zeroPix : Pixel := (0, 0, 0)

/-- Column count of a grid, as cv Mat cols: the length of the first row. -/
def colsOf (m : List (List α)) : ℕ := (m.headD []).length

/-- Entry of a grid at row i, column j (Mat.at), with default d. -/
def get2 (m : List (List α)) (i j : ℕ) (d : α) : α := (m.getD i []).getD j d

/-- Rectangular grid of the given height and width. -/
def Grid (m : List (List α)) (h w : ℕ) : Prop :=
  m.length = h ∧ ∀ r ∈ m, r.length = w

/-- One inner step of the DP of findSeam, lines 43 to 46 of the source:
given the previous cost row, the candidate predecessor costs of column j
are examined exactly in the order of the source (straight, then left with
a strict comparison, then right with a strict comparison) and the pair of
the selected minimum cost and its offset is returned. -/
def minOffset (prev : List ℤ) (cols j : ℕ) : ℤ × Int :=
  let m0 : ℤ × Int := (prev.getD j 0, 0)
  let m1 : ℤ × Int :=
    if 0 < j ∧ prev.getD (j - 1) 0 < m0.1 then (prev.getD (j - 1) 0, -1) else m0
  if j < cols - 1 ∧ prev.getD (j + 1) 0 < m1.1 then (prev.getD (j + 1) 0, 1) else m1

/-- Cost row i computed from cost row i-1 (line 47: cost row i starts as the
clone of energy row i and the selected minimum is added in). -/
def nextCostRow (prev row : List ℤ) (cols : ℕ) : List ℤ :=
  (List.range cols).map (fun j => row.getD j 0 + (minOffset prev cols j).1)

/-- Backtrack row computed from cost row i-1 (line 48). -/
def nextBackRow (prev : List ℤ) (cols : ℕ) : List Int :=
  (List.range cols).map (fun j => (minOffset prev cols j).2)

/-- Row i of the cumulative cost table of findSeam: row 0 is energy row 0
(the clone in line 39), and each later row is obtained from its
predecessor by the inner loop of lines 42 to 49. -/
def costRow (e : Field) : ℕ → List ℤ
  | 0 => e.getD 0 []
  | i + 1 => nextCostRow (costRow e i) (e.getD (i + 1) []) (colsOf e)

/-- The full cumulative cost table (the Mat cost after the DP loop). -/
def costTable (e : Field) : List (List ℤ) :=
  (List.range e.length).map (costRow e)

/-- Backtrack row i, for i at least 1: the offsets chosen while cost row i
was filled in.  Row 0 of the Mat backtrack is never written nor read. -/
def backRow (e : Field) (i : ℕ) : List Int :=
  nextBackRow (costRow e (i - 1)) (colsOf e)

/-- Index of the first minimum of a list (std min_element, line 52):
the smallest index attaining the minimum, 0 for an empty list. -/
def minIdx : List ℤ → ℕ
  | [] => 0
  | [_] => 0
  | x :: y :: ys =>
    let k := minIdx (y :: ys)
    if (y :: ys).getD k 0 < x then k + 1 else 0

/-- Seam column at row (last - d), reconstructed bottom-up as in lines 53
to 55: at distance 0 from the last row the column is the argmin jStar, and
each step up adds the stored backtrack offset of the row below. -/
def seamColUp (e : Field) (last : ℕ) (jStar : Int) : ℕ → Int
  | 0 => jStar
  | d + 1 =>
    let nxt := seamColUp e last jStar d
    nxt + (backRow e (last - d)).getD nxt.toNat 0

/-- findSeam, lines 37 to 57 of the source: run the DP, take the smallest
argmin of the last cost row, and backtrack. Seam entry i is the column at
distance rows - 1 - i above the last row. -/
def findSeam (e : Field) : List Int :=
  (List.range e.length).map (fun i =>
    seamColUp e (e.length - 1) (minIdx (costRow e (e.length - 1)) : Int)
      (e.length - 1 - i))

/-- removeSeam, lines 69 to 81: the output has cols - 1 columns per row;
output entry (i, j) is input (i, j) when j is left of the seam column of
row i and input (i, j + 1) otherwise, exactly as the two copy loops write. -/
def removeSeam (image : Image) (seam : List Int) : Image :=
  (List.range image.length).map (fun i =>
    (List.range (colsOf image - 1)).map (fun j =>
      if (Int.ofNat j) < seam.getD i 0 then get2 image i j zeroPix
      else get2 image i (j + 1) zeroPix))

/-- Modelled from the spec: the grayscale projection performed by the
external collaborator cvtColor; section 4.1 of the spec pins the BT.601
weights but allows any fixed linear projection, and the integer-scaled
weights 299, 587, 114 are used here.  Vec3b stores channels as BGR, so
the red channel is the third component. -/
def grayAt (p : Pixel) : ℤ :=
  299 * (p.2.2 : ℤ) + 587 * (p.2.1 : ℤ) + 114 * (p.1 : ℤ)

/-- Clamp an integer index into the valid range of a dimension of size n
(replicate border policy of the spec). -/
def clampIdx (n : ℕ) (i : Int) : ℕ := (max 0 (min i ((n : Int) - 1))).toNat

/-- Grayscale sample with replicate borders. -/
def grayPix (g : List (List ℤ)) (hgt wd : ℕ) (i j : Int) : ℤ :=
  get2 g (clampIdx hgt i) (clampIdx wd j) 0

/-- Modelled from the spec: the horizontal 3x3 Sobel response of the
external convolution primitive, with replicate borders. -/
def sobelXAt (g : List (List ℤ)) (hgt wd : ℕ) (i j : ℕ) : ℤ :=
  (grayPix g hgt wd ((i : Int) - 1) ((j : Int) + 1)
    + 2 * grayPix g hgt wd (i : Int) ((j : Int) + 1)
    + grayPix g hgt wd ((i : Int) + 1) ((j : Int) + 1))
  - (grayPix g hgt wd ((i : Int) - 1) ((j : Int) - 1)
    + 2 * grayPix g hgt wd (i : Int) ((j : Int) - 1)
    + grayPix g hgt wd ((i : Int) + 1) ((j : Int) - 1))

/-- Modelled from the spec: the vertical 3x3 Sobel response. -/
def sobelYAt (g : List (List ℤ)) (hgt wd : ℕ) (i j : ℕ) : ℤ :=
  (grayPix g hgt wd ((i : Int) + 1) ((j : Int) - 1)
    + 2 * grayPix g hgt wd ((i : Int) + 1) (j : Int)
    + grayPix g hgt wd ((i : Int) + 1) ((j : Int) + 1))
  - (grayPix g hgt wd ((i : Int) - 1) ((j : Int) - 1)
    + 2 * grayPix g hgt wd ((i : Int) - 1) (j : Int)
    + grayPix g hgt wd ((i : Int) - 1) ((j : Int) + 1))

/-- computeEnergy, lines 19 to 28.  The body composes the external
collaborators cvtColor and Sobel; those are modelled from the spec
(sections 4.1 and 6): grayscale projection, 3x3 Sobel with replicate
borders, and the sum of the two absolute responses per cell. -/
def computeEnergy (image : Image) : Field :=
  let g := image.map (fun row => row.map grayAt)
  (List.range image.length).map (fun i =>
    (List.range (colsOf image)).map (fun j =>
      |sobelXAt g image.length (colsOf image) i j|
        + |sobelYAt g image.length (colsOf image) i j|))

/-- One iteration of the carving loop, lines 96 to 98. -/
def carveStep (image : Image) : Image :=
  removeSeam image (findSeam (computeEnergy image))

/-- seamCarving, lines 90 to 101: when numSeams is at least the width the
function returns a clone of the input (after printing a diagnostic);
otherwise the loop body runs once per requested seam, which is
numSeams.toNat times since a negative count gives zero iterations. -/
def seamCarving (image : Image) (numSeams : Int) : Image :=
  if (colsOf image : Int) ≤ numSeams then image
  else Nat.iterate carveStep numSeams.toNat image

/-- Whether the diagnostic of line 92 is printed: exactly the condition of
the guard in line 91. -/
def tooManySeamsMsg (image : Image) (numSeams : Int) : Bool :=
  decide ((colsOf image : Int) ≤ numSeams)

/-- An 8-connected vertical path: one column per row, in range, with
adjacent rows differing by at most one column. -/
def IsPath (h w : ℕ) (p : List Int) : Prop :=
  p.length = h ∧
  (∀ i < h, 0 ≤ p.getD i 0 ∧ p.getD i 0 < (w : Int)) ∧
  (∀ i < h - 1, (p.getD (i + 1) 0 - p.getD i 0).natAbs ≤ 1)

instance decGrid (m : List (List α)) (h w : ℕ) : Decidable (Grid m h w) :=
  inferInstanceAs (Decidable (m.length = h ∧ ∀ r ∈ m, r.length = w))

instance decIsPath (h w : ℕ) (p : List Int) : Decidable (IsPath h w p) :=
  inferInstanceAs (Decidable (_ ∧ (∀ i < h, _ ∧ _) ∧ ∀ i < h - 1, _))

/-- Total energy along a path: the sum of the energy entries it visits. -/
def pathEnergy (e : Field) (p : List Int) : ℤ :=
  ((List.range e.length).map (fun k => get2 e k (p.getD k 0).toNat 0)).sum

/-- Energy of the first i + 1 rows of a path. -/
def energyUpTo (e : Field) (p : List Int) (i : ℕ) : ℤ :=
  ((List.range (i + 1)).map (fun k => get2 e k (p.getD k 0).toNat 0)).sum


/-! List utility lemmas. -/

theorem getD_range_map (f : ℕ → α) (d : α) {n k : ℕ} (hk : k < n) :
    ((List.range n).map f).getD k d = f k := by
  rw [List.getD_eq_getElem _ _ (by simpa using hk)]
  simp

theorem range_map_sum_succ (f : ℕ → ℤ) (n : ℕ) :
    ((List.range (n + 1)).map f).sum = ((List.range n).map f).sum + f n := by
  rw [List.range_succ]
  simp

theorem list_ext_getD {l₁ l₂ : List α} (d : α) (hlen : l₁.length = l₂.length)
    (h : ∀ i < l₁.length, l₁.getD i d = l₂.getD i d) : l₁ = l₂ := by
  apply List.ext_getElem hlen
  intro i h1 h2
  have hi := h i h1
  rwa [List.getD_eq_getElem _ _ h1, List.getD_eq_getElem _ _ h2] at hi

/-! Lemmas about minIdx: it returns the smallest index attaining the
minimum, as std min_element does. -/

theorem minIdx_cons_cons (x y : ℤ) (ys : List ℤ) :
    minIdx (x :: y :: ys) =
      if (y :: ys).getD (minIdx (y :: ys)) 0 < x then minIdx (y :: ys) + 1 else 0 := by
  simp [minIdx]

theorem minIdx_lt_length (l : List ℤ) (hl : l ≠ []) : minIdx l < l.length := by
  induction l with
  | nil => simp at hl
  | cons x xs ih =>
    cases xs with
    | nil => simp [minIdx]
    | cons y ys =>
      have ihh := ih (by simp)
      rw [minIdx_cons_cons]
      split
      · simpa using ihh
      · simp

theorem minIdx_le_all (l : List ℤ) :
    ∀ j < l.length, l.getD (minIdx l) 0 ≤ l.getD j 0 := by
  induction l with
  | nil => simp
  | cons x xs ih =>
    cases xs with
    | nil =>
      intro j hj
      have hj0 : j = 0 := by simpa using Nat.lt_one_iff.mp (by simpa using hj)
      subst hj0
      simp [minIdx]
    | cons y ys =>
      intro j hj
      rw [minIdx_cons_cons]
      by_cases h : (y :: ys).getD (minIdx (y :: ys)) 0 < x
      · rw [if_pos h]
        rcases j with _ | j
        · simpa using le_of_lt h
        · simpa using ih j (by simpa using hj)
      · rw [if_neg h]
        rcases j with _ | j
        · simp
        · push_neg at h
          simpa using le_trans h (ih j (by simpa using hj))

theorem minIdx_first (l : List ℤ) :
    ∀ k < minIdx l, l.getD (minIdx l) 0 < l.getD k 0 := by
  induction l with
  | nil => intro k hk; simp [minIdx] at hk
  | cons x xs ih =>
    cases xs with
    | nil => intro k hk; simp [minIdx] at hk
    | cons y ys =>
      intro k hk
      rw [minIdx_cons_cons] at hk ⊢
      by_cases h : (y :: ys).getD (minIdx (y :: ys)) 0 < x
      · rw [if_pos h] at hk ⊢
        rcases k with _ | k
        · simpa using h
        · simpa using ih k (by omega)
      · rw [if_neg h] at hk
        omega

/-! Lemmas about minOffset: which predecessor the inner DP step selects,
that it attains the selected cost, and that the selected cost is minimal
among the valid predecessors. -/

theorem minOffset_cases (prev : List ℤ) (cols j : ℕ) :
    ((minOffset prev cols j).2 = 0 ∧ (minOffset prev cols j).1 = prev.getD j 0) ∨
    ((minOffset prev cols j).2 = -1 ∧ 0 < j ∧
      (minOffset prev cols j).1 = prev.getD (j - 1) 0) ∨
    ((minOffset prev cols j).2 = 1 ∧ j + 1 < cols ∧
      (minOffset prev cols j).1 = prev.getD (j + 1) 0) := by
  unfold minOffset
  dsimp only
  split_ifs with h1 h2 h3 <;> simp_all <;> omega

theorem minOffset_min (prev : List ℤ) (cols j : ℕ) :
    (minOffset prev cols j).1 ≤ prev.getD j 0 ∧
    (0 < j → (minOffset prev cols j).1 ≤ prev.getD (j - 1) 0) ∧
    (j + 1 < cols → (minOffset prev cols j).1 ≤ prev.getD (j + 1) 0) := by
  unfold minOffset
  dsimp only
  split_ifs with h1 h2 h3 <;>
    refine ⟨?_, fun hl => ?_, fun hr => ?_⟩ <;> push_neg at * <;> first
      | rfl
      | omega

/-- The tie-break policy of the inner DP step (claim C5): straight wins
any tie, left wins over right, and right is chosen only when strictly
smaller than both other valid predecessors. -/
theorem minOffset_tiebreak (prev : List ℤ) (cols j : ℕ) :
    ((0 < j → prev.getD j 0 ≤ prev.getD (j - 1) 0) →
      (j + 1 < cols → prev.getD j 0 ≤ prev.getD (j + 1) 0) →
      (minOffset prev cols j).2 = 0) ∧
    (0 < j → prev.getD (j - 1) 0 < prev.getD j 0 →
      (j + 1 < cols → prev.getD (j - 1) 0 ≤ prev.getD (j + 1) 0) →
      (minOffset prev cols j).2 = -1) ∧
    ((minOffset prev cols j).2 = 1 →
      j + 1 < cols ∧ prev.getD (j + 1) 0 < prev.getD j 0 ∧
        (0 < j → prev.getD (j + 1) 0 < prev.getD (j - 1) 0)) := by
  unfold minOffset
  dsimp only
  split_ifs with h1 h2 h3 <;>
    refine ⟨fun hs hsr => ?_, fun hl hll hlr => ?_, fun ho => ?_⟩ <;>
      push_neg at * <;> simp_all <;> omega

/-! Structural lemmas about the DP tables on a rectangular field. -/

theorem cols_of_grid {m : List (List α)} {hgt wd : ℕ} (hg : Grid m hgt wd)
    (hh : 1 ≤ hgt) : colsOf m = wd := by
  rcases m with _ | ⟨r, rs⟩
  · obtain ⟨h1, _⟩ := hg
    simp at h1
    omega
  · exact hg.2 r (by simp)

theorem row_len {m : List (List α)} {hgt wd : ℕ} (hg : Grid m hgt wd) {i : ℕ}
    (hi : i < hgt) : (m.getD i []).length = wd := by
  have hlen : i < m.length := by rw [hg.1]; exact hi
  rw [List.getD_eq_getElem _ _ hlen]
  exact hg.2 _ (List.getElem_mem hlen)

theorem costRow_length {e : Field} {hgt wd : ℕ} (hg : Grid e hgt wd) (hh : 1 ≤ hgt) :
    ∀ i, (costRow e i).length = wd := by
  intro i
  cases i with
  | zero => exact row_len hg hh
  | succ i => simp [costRow, nextCostRow, cols_of_grid hg hh]

theorem costRow_ne_nil {e : Field} {hgt wd : ℕ} (hg : Grid e hgt wd) (hh : 1 ≤ hgt)
    (hw : 1 ≤ wd) (i : ℕ) : costRow e i ≠ [] := by
  intro hnil
  have hl := costRow_length hg hh i
  rw [hnil] at hl
  simp at hl
  omega

theorem costRow_succ_getD {e : Field} {hgt wd : ℕ} (hg : Grid e hgt wd) (hh : 1 ≤ hgt)
    {i j : ℕ} (hj : j < wd) :
    (costRow e (i + 1)).getD j 0 =
      (e.getD (i + 1) []).getD j 0 + (minOffset (costRow e i) wd j).1 := by
  show (nextCostRow (costRow e i) (e.getD (i + 1) []) (colsOf e)).getD j 0 = _
  rw [cols_of_grid hg hh, nextCostRow, getD_range_map _ _ hj]

theorem backRow_getD {e : Field} {hgt wd : ℕ} (hg : Grid e hgt wd) (hh : 1 ≤ hgt)
    {i j : ℕ} (hj : j < wd) :
    (backRow e i).getD j 0 = (minOffset (costRow e (i - 1)) wd j).2 := by
  rw [backRow, cols_of_grid hg hh, nextBackRow, getD_range_map _ _ hj]

/-! Lemmas about the reconstructed seam. -/

theorem seamColUp_succ (e : Field) (last : ℕ) (jStar : Int) (d : ℕ) :
    seamColUp e last jStar (d + 1) =
      seamColUp e last jStar d +
        (backRow e (last - d)).getD (seamColUp e last jStar d).toNat 0 := rfl

theorem findSeam_length (e : Field) : (findSeam e).length = e.length := by
  simp [findSeam]

theorem findSeam_getD {e : Field} {hgt wd : ℕ} (hg : Grid e hgt wd) {i : ℕ}
    (hi : i < hgt) :
    (findSeam e).getD i 0 =
      seamColUp e (hgt - 1) (minIdx (costRow e (hgt - 1)) : Int) (hgt - 1 - i) := by
  have he : e.length = hgt := hg.1
  rw [findSeam]
  simp only [he]
  rw [getD_range_map _ _ hi]

theorem seamColUp_bounds {e : Field} {hgt wd : ℕ} (hg : Grid e hgt wd) (hh : 1 ≤ hgt)
    (hw : 1 ≤ wd) :
    ∀ d, d ≤ hgt - 1 →
      0 ≤ seamColUp e (hgt - 1) (minIdx (costRow e (hgt - 1)) : Int) d ∧
        seamColUp e (hgt - 1) (minIdx (costRow e (hgt - 1)) : Int) d < (wd : Int) := by
  intro d
  induction d with
  | zero =>
    intro _
    have hlt := minIdx_lt_length (costRow e (hgt - 1)) (costRow_ne_nil hg hh hw _)
    rw [costRow_length hg hh] at hlt
    constructor
    · simp [seamColUp]
    · simpa [seamColUp] using hlt
  | succ d ih =>
    intro hd
    obtain ⟨h0, h1⟩ := ih (by omega)
    rw [seamColUp_succ]
    set nxt := seamColUp e (hgt - 1) (minIdx (costRow e (hgt - 1)) : Int) d with hnxt
    have hjn : nxt.toNat < wd := by omega
    rw [backRow_getD hg hh hjn]
    rcases minOffset_cases (costRow e (hgt - 1 - d - 1)) wd nxt.toNat with
      ⟨ho, _⟩ | ⟨ho, hpos, _⟩ | ⟨ho, hlt, _⟩ <;> rw [ho] <;> omega

theorem seamColUp_step_natAbs {e : Field} {hgt wd : ℕ} (hg : Grid e hgt wd)
    (hh : 1 ≤ hgt) (hw : 1 ≤ wd) (d : ℕ) (hd : d + 1 ≤ hgt - 1) :
    (seamColUp e (hgt - 1) (minIdx (costRow e (hgt - 1)) : Int) (d + 1) -
      seamColUp e (hgt - 1) (minIdx (costRow e (hgt - 1)) : Int) d).natAbs ≤ 1 := by
  obtain ⟨h0, h1⟩ := seamColUp_bounds hg hh hw d (by omega)
  rw [seamColUp_succ]
  set nxt := seamColUp e (hgt - 1) (minIdx (costRow e (hgt - 1)) : Int) d with hnxt
  have hjn : nxt.toNat < wd := by omega
  rw [backRow_getD hg hh hjn]
  rcases minOffset_cases (costRow e (hgt - 1 - d - 1)) wd nxt.toNat with
    ⟨ho, _⟩ | ⟨ho, _, _⟩ | ⟨ho, _, _⟩ <;> rw [ho] <;> omega

theorem findSeam_getD_succ {e : Field} {hgt wd : ℕ} (hg : Grid e hgt wd) (hh : 1 ≤ hgt)
    {i : ℕ} (hi : i + 1 ≤ hgt - 1) :
    (findSeam e).getD i 0 =
      (findSeam e).getD (i + 1) 0 +
        (backRow e (i + 1)).getD ((findSeam e).getD (i + 1) 0).toNat 0 := by
  rw [findSeam_getD hg (by omega), findSeam_getD hg (by omega)]
  have h1 : hgt - 1 - i = (hgt - 1 - (i + 1)) + 1 := by omega
  rw [h1, seamColUp_succ]
  have h2 : hgt - 1 - (hgt - 1 - (i + 1)) = i + 1 := by omega
  rw [h2]

theorem findSeam_isPath {e : Field} {hgt wd : ℕ} (hg : Grid e hgt wd) (hh : 1 ≤ hgt)
    (hw : 1 ≤ wd) : IsPath hgt wd (findSeam e) := by
  refine ⟨by rw [findSeam_length, hg.1], ?_, ?_⟩
  · intro i hi
    rw [findSeam_getD hg hi]
    exact seamColUp_bounds hg hh hw (hgt - 1 - i) (by omega)
  · intro i hi
    rw [findSeam_getD hg (show i + 1 < hgt by omega),
      findSeam_getD hg (show i < hgt by omega)]
    have h1 : hgt - 1 - i = (hgt - 1 - (i + 1)) + 1 := by omega
    rw [h1]
    have := seamColUp_step_natAbs hg hh hw (hgt - 1 - (i + 1)) (by omega)
    omega

/-! Path energies. -/

theorem energyUpTo_zero (e : Field) (p : List Int) :
    energyUpTo e p 0 = get2 e 0 (p.getD 0 0).toNat 0 := by
  unfold energyUpTo
  rw [range_map_sum_succ]
  simp

theorem energyUpTo_succ (e : Field) (p : List Int) (i : ℕ) :
    energyUpTo e p (i + 1) =
      energyUpTo e p i + get2 e (i + 1) (p.getD (i + 1) 0).toNat 0 := by
  unfold energyUpTo
  exact range_map_sum_succ _ _

theorem pathEnergy_eq_energyUpTo {e : Field} {hgt : ℕ} (he : e.length = hgt)
    (hh : 1 ≤ hgt) (p : List Int) : pathEnergy e p = energyUpTo e p (hgt - 1) := by
  unfold pathEnergy energyUpTo
  rw [he]
  have h : hgt - 1 + 1 = hgt := by omega
  rw [h]

/-- The DP step cost is at most the cost of any valid predecessor at
offset q in {-1, 0, 1}. -/
theorem minOffset_le_nbr (prev : List ℤ) (cols j : ℕ) (q : Int) (hq : q.natAbs ≤ 1)
    (h0 : 0 ≤ (j : Int) + q) (h1 : (j : Int) + q < (cols : Int)) :
    (minOffset prev cols j).1 ≤ prev.getD ((j : Int) + q).toNat 0 := by
  obtain ⟨hs, hl, hr⟩ := minOffset_min prev cols j
  have hq3 : q = -1 ∨ q = 0 ∨ q = 1 := by omega
  rcases hq3 with hq1 | hq1 | hq1 <;> subst hq1
  · have harg : ((j : Int) + -1).toNat = j - 1 := by omega
    rw [harg]
    exact hl (by omega)
  · have harg : ((j : Int) + 0).toNat = j := by omega
    rw [harg]
    exact hs
  · have harg : ((j : Int) + 1).toNat = j + 1 := by omega
    rw [harg]
    exact hr (by omega)

/-- The DP step cost equals the cost of the predecessor whose offset it
stores. -/
theorem minOffset_achieves (prev : List ℤ) (cols j : ℕ) :
    (minOffset prev cols j).1 =
      prev.getD ((j : Int) + (minOffset prev cols j).2).toNat 0 := by
  rcases minOffset_cases prev cols j with ⟨ho, hv⟩ | ⟨ho, hpos, hv⟩ | ⟨ho, hlt, hv⟩ <;>
    rw [ho, hv] <;> congr 1 <;> omega

/-- Lower bound: every cumulative cost is at most the energy of every
valid path segment from row 0 reaching the same cell. -/
theorem costRow_le_path {e : Field} {hgt wd : ℕ} (hg : Grid e hgt wd) (hh : 1 ≤ hgt)
    (hw : 1 ≤ wd) (p : List Int) (hp : IsPath hgt wd p) :
    ∀ i, i < hgt → (costRow e i).getD (p.getD i 0).toNat 0 ≤ energyUpTo e p i := by
  obtain ⟨hlen, hbnd, hadj⟩ := hp
  intro i
  induction i with
  | zero =>
    intro _
    rw [energyUpTo_zero]
    simp [costRow, get2]
  | succ i ih =>
    intro hi
    have hji := hbnd (i + 1) hi
    have hjp := hbnd i (by omega)
    have hadj2 := hadj i (by omega)
    have hjn : (p.getD (i + 1) 0).toNat < wd := by omega
    rw [costRow_succ_getD hg hh hjn, energyUpTo_succ]
    have hle : (minOffset (costRow e i) wd (p.getD (i + 1) 0).toNat).1 ≤
        (costRow e i).getD (p.getD i 0).toNat 0 := by
      have hnb := minOffset_le_nbr (costRow e i) wd (p.getD (i + 1) 0).toNat
        (p.getD i 0 - p.getD (i + 1) 0) (by omega) (by omega) (by omega)
      have harg : ((((p.getD (i + 1) 0).toNat : ℕ) : Int) +
          (p.getD i 0 - p.getD (i + 1) 0)).toNat = (p.getD i 0).toNat := by omega
      rwa [harg] at hnb
    have hih := ih (by omega)
    have hg2 : get2 e (i + 1) (p.getD (i + 1) 0).toNat 0 =
        (e.getD (i + 1) []).getD (p.getD (i + 1) 0).toNat 0 := rfl
    rw [hg2]
    omega

/-- Telescoping: along the reconstructed seam the cumulative cost at row i
equals the energy accumulated by the seam from row 0 through row i. -/
theorem costRow_findSeam_energy {e : Field} {hgt wd : ℕ} (hg : Grid e hgt wd)
    (hh : 1 ≤ hgt) (hw : 1 ≤ wd) :
    ∀ i, i ≤ hgt - 1 →
      (costRow e i).getD ((findSeam e).getD i 0).toNat 0 =
        energyUpTo e (findSeam e) i := by
  obtain ⟨hlen, hbnd, hadj⟩ := findSeam_isPath hg hh hw
  intro i
  induction i with
  | zero =>
    intro _
    rw [energyUpTo_zero]
    rfl
  | succ i ih =>
    intro hi
    have hi1 : i + 1 < hgt := by omega
    have hb1 := hbnd (i + 1) hi1
    have hjn : ((findSeam e).getD (i + 1) 0).toNat < wd := by omega
    rw [costRow_succ_getD hg hh hjn, energyUpTo_succ, minOffset_achieves]
    have hrec := findSeam_getD_succ hg hh (show i + 1 ≤ hgt - 1 by omega)
    have hback := @backRow_getD e hgt wd hg hh (i + 1)
      ((findSeam e).getD (i + 1) 0).toNat hjn
    rw [show i + 1 - 1 = i from rfl] at hback
    rw [hback] at hrec
    have harg : ((((findSeam e).getD (i + 1) 0).toNat : Int) +
        (minOffset (costRow e i) wd ((findSeam e).getD (i + 1) 0).toNat).2).toNat =
        ((findSeam e).getD i 0).toNat := by omega
    rw [harg, ih (by omega)]
    have hg2 : get2 e (i + 1) ((findSeam e).getD (i + 1) 0).toNat 0 =
        (e.getD (i + 1) []).getD ((findSeam e).getD (i + 1) 0).toNat 0 := rfl
    rw [hg2]
    ring

/-! Claim theorems. -/

/-- C1: for every energy field with at least one row and one column, the
seam returned by findSeam is an 8-connected vertical path, its total
energy equals the value of the last cost row at its smallest argmin,
that value is the minimum of the last cost row, and it is also the
minimum of the path energies over all 8-connected vertical paths (the
minimum is attained because the seam itself is such a path). -/
theorem findSeam_optimal (e : Field) (hgt wd : ℕ) (hg : Grid e hgt wd)
    (hh : 1 ≤ hgt) (hw : 1 ≤ wd) :
    IsPath hgt wd (findSeam e) ∧
    pathEnergy e (findSeam e) =
      (costRow e (hgt - 1)).getD (minIdx (costRow e (hgt - 1))) 0 ∧
    (∀ j < wd, (costRow e (hgt - 1)).getD (minIdx (costRow e (hgt - 1))) 0 ≤
      (costRow e (hgt - 1)).getD j 0) ∧
    (∀ p, IsPath hgt wd p → pathEnergy e (findSeam e) ≤ pathEnergy e p) := by
  have hpath := findSeam_isPath hg hh hw
  have hTS := costRow_findSeam_energy hg hh hw (hgt - 1) le_rfl
  have hlast : (findSeam e).getD (hgt - 1) 0 = (minIdx (costRow e (hgt - 1)) : Int) := by
    rw [findSeam_getD hg (show hgt - 1 < hgt by omega)]
    have h0 : hgt - 1 - (hgt - 1) = 0 := by omega
    rw [h0]
    rfl
  have hmin := minIdx_le_all (costRow e (hgt - 1))
  have hlen := costRow_length hg hh (hgt - 1)
  have hval : pathEnergy e (findSeam e) =
      (costRow e (hgt - 1)).getD (minIdx (costRow e (hgt - 1))) 0 := by
    rw [pathEnergy_eq_energyUpTo hg.1 hh, ← hTS, hlast]
    simp
  refine ⟨hpath, hval, ?_, ?_⟩
  · intro j hj
    exact hmin j (by rw [hlen]; exact hj)
  · intro p hp
    have hLB := costRow_le_path hg hh hw p hp (hgt - 1) (by omega)
    have hbp : (p.getD (hgt - 1) 0).toNat < (costRow e (hgt - 1)).length := by
      rw [hlen]
      have := hp.2.1 (hgt - 1) (by omega)
      omega
    have h2 := hmin _ hbp
    rw [pathEnergy_eq_energyUpTo hg.1 hh p, hval]
    exact le_trans h2 hLB

theorem findSeam_optimal_witness :
    IsPath 3 3 (findSeam [[1,3,1],[3,1,3],[1,3,1]]) ∧
    pathEnergy [[1,3,1],[3,1,3],[1,3,1]] (findSeam [[1,3,1],[3,1,3],[1,3,1]]) =
      (costRow [[1,3,1],[3,1,3],[1,3,1]] 2).getD
        (minIdx (costRow [[1,3,1],[3,1,3],[1,3,1]] 2)) 0 ∧
    (∀ j < 3, (costRow [[1,3,1],[3,1,3],[1,3,1]] 2).getD
        (minIdx (costRow [[1,3,1],[3,1,3],[1,3,1]] 2)) 0 ≤
      (costRow [[1,3,1],[3,1,3],[1,3,1]] 2).getD j 0) ∧
    (∀ p, IsPath 3 3 p →
      pathEnergy [[1,3,1],[3,1,3],[1,3,1]] (findSeam [[1,3,1],[3,1,3],[1,3,1]]) ≤
        pathEnergy [[1,3,1],[3,1,3],[1,3,1]] p) :=
  findSeam_optimal [[1,3,1],[3,1,3],[1,3,1]] 3 3 (by decide) (by decide) (by decide)

/-- C4: for every energy field with at least one row and one column, the
seam has one column per row, each in range, and adjacent rows differ by
at most one column. -/
theorem findSeam_valid (e : Field) (hgt wd : ℕ) (hg : Grid e hgt wd)
    (hh : 1 ≤ hgt) (hw : 1 ≤ wd) :
    (findSeam e).length = hgt ∧
    (∀ i < hgt, 0 ≤ (findSeam e).getD i 0 ∧ (findSeam e).getD i 0 < (wd : Int)) ∧
    (∀ i < hgt - 1,
      ((findSeam e).getD (i + 1) 0 - (findSeam e).getD i 0).natAbs ≤ 1) :=
  findSeam_isPath hg hh hw

theorem findSeam_valid_witness :
    (findSeam [[1,3,1],[3,1,3],[1,3,1]]).length = 3 ∧
    (∀ i < 3, 0 ≤ (findSeam [[1,3,1],[3,1,3],[1,3,1]]).getD i 0 ∧
      (findSeam [[1,3,1],[3,1,3],[1,3,1]]).getD i 0 < (3 : Int)) ∧
    (∀ i < 3 - 1, ((findSeam [[1,3,1],[3,1,3],[1,3,1]]).getD (i + 1) 0 -
      (findSeam [[1,3,1],[3,1,3],[1,3,1]]).getD i 0).natAbs ≤ 1) :=
  findSeam_valid [[1,3,1],[3,1,3],[1,3,1]] 3 3 (by decide) (by decide) (by decide)

/-! Lemmas about removeSeam and the carving driver. -/

theorem removeSeam_grid {img : Image} (seam : List Int) {hgt wd : ℕ}
    (hg : Grid img hgt wd) (hh : 1 ≤ hgt) :
    Grid (removeSeam img seam) hgt (wd - 1) := by
  constructor
  · simp [removeSeam, hg.1]
  · intro r hr
    simp only [removeSeam, List.mem_map, List.mem_range] at hr
    obtain ⟨i, hi, rfl⟩ := hr
    simp [cols_of_grid hg hh]

theorem removeSeam_get2 {img : Image} {seam : List Int} {hgt wd : ℕ}
    (hg : Grid img hgt wd) (hh : 1 ≤ hgt) {i j : ℕ} (hi : i < hgt)
    (hj : j < wd - 1) :
    get2 (removeSeam img seam) i j zeroPix =
      if (Int.ofNat j) < seam.getD i 0 then get2 img i j zeroPix
      else get2 img i (j + 1) zeroPix := by
  have h1 : (removeSeam img seam).getD i [] =
      (List.range (colsOf img - 1)).map (fun j =>
        if (Int.ofNat j) < seam.getD i 0 then get2 img i j zeroPix
        else get2 img i (j + 1) zeroPix) := by
    unfold removeSeam
    exact getD_range_map _ _ (by rw [hg.1]; exact hi)
  show ((removeSeam img seam).getD i []).getD j zeroPix = _
  rw [h1, getD_range_map]
  rw [cols_of_grid hg hh]
  exact hj

/-- C3: removing a valid seam from an image with at least two columns
yields an image one column narrower in which every pixel left of the seam
is unchanged and every pixel at or right of the seam comes from one
column further right; no pixel value is altered. -/
theorem removeSeam_correct (img : Image) (seam : List Int) (hgt wd : ℕ)
    (hg : Grid img hgt wd) (hh : 1 ≤ hgt) (hw : 2 ≤ wd)
    (hlen : seam.length = hgt)
    (hs : ∀ i < hgt, 0 ≤ seam.getD i 0 ∧ seam.getD i 0 ≤ (wd : Int) - 1) :
    Grid (removeSeam img seam) hgt (wd - 1) ∧
    (∀ i < hgt, ∀ j < wd - 1,
      ((Int.ofNat j) < seam.getD i 0 →
        get2 (removeSeam img seam) i j zeroPix = get2 img i j zeroPix) ∧
      (seam.getD i 0 ≤ (Int.ofNat j) →
        get2 (removeSeam img seam) i j zeroPix = get2 img i (j + 1) zeroPix)) := by
  refine ⟨removeSeam_grid seam hg hh, ?_⟩
  intro i hi j hj
  rw [removeSeam_get2 hg hh hi hj]
  constructor
  · intro hlt
    rw [if_pos hlt]
  · intro hge
    rw [if_neg (by omega)]

theorem removeSeam_correct_witness :
    Grid (removeSeam [[(1,2,3),(4,5,6)]] [(0:Int)]) 1 (2 - 1) ∧
    (∀ i < 1, ∀ j < 2 - 1,
      ((Int.ofNat j) < [(0:Int)].getD i 0 →
        get2 (removeSeam [[(1,2,3),(4,5,6)]] [(0:Int)]) i j zeroPix =
          get2 [[(1,2,3),(4,5,6)]] i j zeroPix) ∧
      ([(0:Int)].getD i 0 ≤ (Int.ofNat j) →
        get2 (removeSeam [[(1,2,3),(4,5,6)]] [(0:Int)]) i j zeroPix =
          get2 [[(1,2,3),(4,5,6)]] i (j + 1) zeroPix)) :=
  removeSeam_correct [[(1,2,3),(4,5,6)]] [(0:Int)] 1 2 (by decide) (by decide)
    (by decide) (by decide) (by decide)

/-- C7 counterexample: a seam whose length differs from the row count (2
entries against 1 row) is invalid by the claim, yet removeSeam does not
fail with any error: it returns an image normally, ignoring the extra
entry.  The code contains no validation at all. -/
theorem removeSeam_no_validation_cex :
    ¬ ([(0 : Int), 5].length = 1) ∧
    removeSeam [[(1,2,3),(4,5,6)]] [(0 : Int), 5] = [[(4,5,6)]] := by decide

/-- C7 amended: removeSeam performs no validation of the seam and never
signals InvalidSeam.  It reads only the seam entries of rows 0 to H - 1,
so a seam longer than H (invalid by the claim) is processed normally with
the extra entries ignored: whenever the H entries actually read are in
range, it returns an image with H rows and W - 1 columns.  (A shorter
seam, or an out-of-range entry, makes the C++ access memory out of
bounds rather than signal an error, so no statement is made there.) -/
theorem removeSeam_total (img : Image) (seam : List Int) (hgt wd : ℕ)
    (hg : Grid img hgt wd) (hh : 1 ≤ hgt) (hlen : hgt ≤ seam.length)
    (hs : ∀ i < hgt, 0 ≤ seam.getD i 0 ∧ seam.getD i 0 ≤ (wd : Int) - 1) :
    Grid (removeSeam img seam) hgt (wd - 1) :=
  removeSeam_grid seam hg hh

theorem removeSeam_total_witness :
    2 ≤ [(1 : Int), 9].length ∧
    Grid (removeSeam [[(1,2,3),(4,5,6)]] [(1 : Int), 9]) 1 (2 - 1) :=
  ⟨by decide,
    removeSeam_total [[(1,2,3),(4,5,6)]] [(1 : Int), 9] 1 2 (by decide) (by decide)
      (by decide) (by decide)⟩

theorem iterate_carve_grid {hgt : ℕ} (hh : 1 ≤ hgt) :
    ∀ (n wd : ℕ) (img : Image), Grid img hgt wd → n < wd →
      Grid (Nat.iterate carveStep n img) hgt (wd - n) := by
  intro n
  induction n with
  | zero =>
    intro wd img hg _
    simpa using hg
  | succ n ih =>
    intro wd img hg hlt
    rw [Function.iterate_succ_apply]
    have h1 : Grid (carveStep img) hgt (wd - 1) := removeSeam_grid _ hg hh
    have h2 := ih (wd - 1) (carveStep img) h1 (by omega)
    have h3 : wd - 1 - n = wd - (n + 1) := by omega
    rwa [h3] at h2

/-- C8: for a valid seam count (nonnegative and below the width) the
driver succeeds and returns an image of exactly H rows and W - N
columns, and requesting zero seams returns the input unchanged. -/
theorem seamCarving_dims (img : Image) (n : Int) (hgt wd : ℕ)
    (hg : Grid img hgt wd) (hh : 1 ≤ hgt) (h0 : 0 ≤ n) (hn : n < (wd : Int)) :
    Grid (seamCarving img n) hgt (wd - n.toNat) ∧ seamCarving img 0 = img := by
  have hc : ¬ ((colsOf img : Int) ≤ n) := by
    rw [cols_of_grid hg hh]
    omega
  constructor
  · rw [seamCarving, if_neg hc]
    exact iterate_carve_grid hh n.toNat wd img hg (by omega)
  · have hc0 : ¬ ((colsOf img : Int) ≤ 0) := by
      rw [cols_of_grid hg hh]
      omega
    rw [seamCarving, if_neg hc0]
    rfl

theorem seamCarving_dims_witness :
    Grid (seamCarving [[(1,2,3),(4,5,6)]] 1) 1 (2 - (1 : Int).toNat) ∧
    seamCarving [[(1,2,3),(4,5,6)]] 0 = [[(1,2,3),(4,5,6)]] :=
  seamCarving_dims [[(1,2,3),(4,5,6)]] 1 1 2 (by decide) (by decide) (by decide)
    (by decide)

/-- C2 counterexample: with width 1, both N = 5 (too many seams) and
N = -1 (negative) make the driver return the input image itself; it does
not fail, and it does return an image, contradicting the claim. -/
theorem seamCarving_returns_input_cex :
    seamCarving [[(1,2,3)]] 5 = [[(1,2,3)]] ∧
    seamCarving [[(1,2,3)]] (-1) = [[(1,2,3)]] := by decide

/-- C2 amended: for N at least the width the driver prints the diagnostic
of line 92 and returns an unmodified copy of the input image; for
negative N it prints nothing and returns the input unchanged.  In neither
case does any error value reach the caller. -/
theorem seamCarving_no_failure (img : Image) (n : Int) :
    ((colsOf img : Int) ≤ n →
      seamCarving img n = img ∧ tooManySeamsMsg img n = true) ∧
    (n < 0 → seamCarving img n = img ∧ tooManySeamsMsg img n = false) := by
  constructor
  · intro h
    constructor
    · rw [seamCarving, if_pos h]
    · simp [tooManySeamsMsg, h]
  · intro h
    have hge : (0 : Int) ≤ (colsOf img : Int) := Int.natCast_nonneg _
    have hc : ¬ ((colsOf img : Int) ≤ n) := by omega
    refine ⟨?_, ?_⟩
    · rw [seamCarving, if_neg hc]
      have hz : n.toNat = 0 := by omega
      rw [hz]
      rfl
    · simp only [tooManySeamsMsg, decide_eq_false_iff_not]
      exact hc

theorem seamCarving_no_failure_witness :
    seamCarving [[(1,2,3)]] 5 = [[(1,2,3)]] ∧
      tooManySeamsMsg [[(1,2,3)]] 5 = true :=
  (seamCarving_no_failure [[(1,2,3)]] 5).1 (by decide)

/-- C10: whenever N is at least the width or negative, the driver returns
an image equal to its input, pixel for pixel, and signals no error to its
caller: the guard branch returns a clone, and a negative N makes the loop
run zero times. -/
theorem seamCarving_invalid_returns_input (img : Image) (n : Int)
    (h : (colsOf img : Int) ≤ n ∨ n < 0) : seamCarving img n = img := by
  by_cases hc : (colsOf img : Int) ≤ n
  · rw [seamCarving, if_pos hc]
  · rw [seamCarving, if_neg hc]
    have hge : (0 : Int) ≤ (colsOf img : Int) := Int.natCast_nonneg _
    have hz : n.toNat = 0 := by omega
    rw [hz]
    rfl

theorem seamCarving_invalid_returns_input_witness :
    seamCarving [[(7,8,9)]] (-3) = [[(7,8,9)]] :=
  seamCarving_invalid_returns_input [[(7,8,9)]] (-3) (by decide)

/-- C5: the tie-break policy of findSeam.  For every interior cell, if the
straight predecessor attains the minimum of the valid predecessor costs
the stored offset is 0; if straight does not attain it but left does, the
offset is -1; the offset is +1 only when the right predecessor is
strictly cheaper than both other valid predecessors.  The backtrack
starts at the smallest column attaining the minimum of the last cost row.
Since the embedding is a function of the energy field alone, findSeam is
deterministic. -/
theorem findSeam_tiebreak (e : Field) (hgt wd : ℕ) (hg : Grid e hgt wd)
    (hh : 1 ≤ hgt) (hw : 1 ≤ wd) :
    (∀ i, 1 ≤ i → i < hgt → ∀ j < wd,
      ((0 < j →
          (costRow e (i - 1)).getD j 0 ≤ (costRow e (i - 1)).getD (j - 1) 0) →
        (j + 1 < wd →
          (costRow e (i - 1)).getD j 0 ≤ (costRow e (i - 1)).getD (j + 1) 0) →
        (backRow e i).getD j 0 = 0) ∧
      (0 < j →
        (costRow e (i - 1)).getD (j - 1) 0 < (costRow e (i - 1)).getD j 0 →
        (j + 1 < wd →
          (costRow e (i - 1)).getD (j - 1) 0 ≤ (costRow e (i - 1)).getD (j + 1) 0) →
        (backRow e i).getD j 0 = -1) ∧
      ((backRow e i).getD j 0 = 1 →
        j + 1 < wd ∧
        (costRow e (i - 1)).getD (j + 1) 0 < (costRow e (i - 1)).getD j 0 ∧
        (0 < j →
          (costRow e (i - 1)).getD (j + 1) 0 < (costRow e (i - 1)).getD (j - 1) 0))) ∧
    (∀ j < wd, (costRow e (hgt - 1)).getD (minIdx (costRow e (hgt - 1))) 0 ≤
      (costRow e (hgt - 1)).getD j 0) ∧
    (∀ k < minIdx (costRow e (hgt - 1)),
      (costRow e (hgt - 1)).getD (minIdx (costRow e (hgt - 1))) 0 <
        (costRow e (hgt - 1)).getD k 0) := by
  have hlen := costRow_length hg hh (hgt - 1)
  refine ⟨?_, ?_, ?_⟩
  · intro i h1 hi j hj
    rw [backRow_getD hg hh hj]
    exact minOffset_tiebreak (costRow e (i - 1)) wd j
  · intro j hj
    exact minIdx_le_all (costRow e (hgt - 1)) j (by rw [hlen]; exact hj)
  · exact minIdx_first (costRow e (hgt - 1))

theorem findSeam_tiebreak_witness :
    (∀ i, 1 ≤ i → i < 2 → ∀ j < 2,
      ((0 < j →
          (costRow [[1,2],[3,4]] (i - 1)).getD j 0 ≤
            (costRow [[1,2],[3,4]] (i - 1)).getD (j - 1) 0) →
        (j + 1 < 2 →
          (costRow [[1,2],[3,4]] (i - 1)).getD j 0 ≤
            (costRow [[1,2],[3,4]] (i - 1)).getD (j + 1) 0) →
        (backRow [[1,2],[3,4]] i).getD j 0 = 0) ∧
      (0 < j →
        (costRow [[1,2],[3,4]] (i - 1)).getD (j - 1) 0 <
          (costRow [[1,2],[3,4]] (i - 1)).getD j 0 →
        (j + 1 < 2 →
          (costRow [[1,2],[3,4]] (i - 1)).getD (j - 1) 0 ≤
            (costRow [[1,2],[3,4]] (i - 1)).getD (j + 1) 0) →
        (backRow [[1,2],[3,4]] i).getD j 0 = -1) ∧
      ((backRow [[1,2],[3,4]] i).getD j 0 = 1 →
        j + 1 < 2 ∧
        (costRow [[1,2],[3,4]] (i - 1)).getD (j + 1) 0 <
          (costRow [[1,2],[3,4]] (i - 1)).getD j 0 ∧
        (0 < j →
          (costRow [[1,2],[3,4]] (i - 1)).getD (j + 1) 0 <
            (costRow [[1,2],[3,4]] (i - 1)).getD (j - 1) 0))) ∧
    (∀ j < 2, (costRow [[1,2],[3,4]] (2 - 1)).getD
        (minIdx (costRow [[1,2],[3,4]] (2 - 1))) 0 ≤
      (costRow [[1,2],[3,4]] (2 - 1)).getD j 0) ∧
    (∀ k < minIdx (costRow [[1,2],[3,4]] (2 - 1)),
      (costRow [[1,2],[3,4]] (2 - 1)).getD
          (minIdx (costRow [[1,2],[3,4]] (2 - 1))) 0 <
        (costRow [[1,2],[3,4]] (2 - 1)).getD k 0) :=
  findSeam_tiebreak [[1,2],[3,4]] 2 2 (by decide) (by decide) (by decide)

/-- C6 counterexample: a field with one row and zero columns violates the
precondition W at least 1, yet findSeam does not fail with any error: it
runs to completion and returns the seam with the single entry 0 (the
degenerate argmin of the empty last row).  The code contains no dimension
check and no error path at all. -/
theorem findSeam_no_dim_check_cex :
    colsOf ([[]] : Field) = 0 ∧ findSeam ([[]] : Field) = [0] := by decide

/-- C6 amended: findSeam performs no dimension validation and never
signals InvalidDimensions; on every field with H at least 1 and W at
least 1 it simply returns a seam of length H. -/
theorem findSeam_total_on_valid (e : Field) (hgt wd : ℕ) (hg : Grid e hgt wd)
    (hh : 1 ≤ hgt) (hw : 1 ≤ wd) : (findSeam e).length = hgt := by
  rw [findSeam_length, hg.1]

theorem findSeam_total_on_valid_witness :
    (findSeam [[(2 : ℤ)]]).length = 1 :=
  findSeam_total_on_valid [[(2 : ℤ)]] 1 1 (by decide) (by decide) (by decide)

/-- C9: on the 3x3 synthetic energy field the cumulative cost table, the
argmin of the last row, the reconstructed seam, and its total energy are
exactly the values stated in the spec. -/
theorem findSeam_example3x3 :
    costTable [[1,3,1],[3,1,3],[1,3,1]] = [[1,3,1],[4,2,4],[3,5,3]] ∧
    minIdx (costRow [[1,3,1],[3,1,3],[1,3,1]] 2) = 0 ∧
    findSeam [[1,3,1],[3,1,3],[1,3,1]] = [0, 1, 0] ∧
    pathEnergy [[1,3,1],[3,1,3],[1,3,1]] [0, 1, 0] = 3 := by decide

end SeamCarving
